import Mathlib

/-!
Shallow embedding of the `trie` package of metajar/trie-network
(`pkg/trie`, Go): a binary trie keyed on the bit sequence of an IP
address, mapping CIDR prefixes to metadata.

Addresses and CIDRs enter the Go code through `net.ParseIP` /
`net.ParseCIDR`; here an operation receives the parser's OUTPUT
directly: `Option Bytes` (resp. `Option CIDR`), with `none` standing
for "the text did not parse".  `CIDR` carries the masked address bytes
(`ip`), the mask size pair `(ones, total)` returned by
`ipnet.Mask.Size()`, and the original text.  Metadata
(`map[string]interface{}` in Go) is an opaque payload `α`; a node's
metadata field is `Option α`, `none` standing for the freshly
allocated empty map.  A Go runtime panic (index out of range) is
modelled by the distinguished error value `TrieErr.crash`.
-/

namespace TrieNet

/-- Byte sequence of a parsed IP address (`net.IP`). -/
abbrev Bytes := List Nat

/-- Go source: `type Node struct { children map[byte]*Node; isEnd bool;
metadata map[string]interface{}; cidr string }`.  Only the bit values
`0` and `1` are ever used as keys of `children`, so the map is carried
as two optional child slots. -/
inductive Node (α : Type) : Type where
  | mk : Option (Node α) → Option (Node α) → Bool → Option α → String → Node α

/-- Child slot for a bit value (Go `node.children[bit]`; `bit` is always
`x &&& 1`, hence `0` or `1`). -/
def Node.child {α : Type} (n : Node α) (b : Nat) : Option (Node α) :=
  match n with
  | .mk c0 c1 _ _ _ => if b = 0 then c0 else c1

/-- Go `node.isEnd`. -/
def Node.isEnd {α : Type} (n : Node α) : Bool :=
  match n with
  | .mk _ _ e _ _ => e

/-- Go `node.metadata` (`none` is the empty map a fresh node gets). -/
def Node.metadata {α : Type} (n : Node α) : Option α :=
  match n with
  | .mk _ _ _ m _ => m

/-- Go `node.cidr`. -/
def Node.cidr {α : Type} (n : Node α) : String :=
  match n with
  | .mk _ _ _ _ s => s

/-- Go `node.children[bit] = c` (store into the child map). -/
def Node.setChild {α : Type} (n : Node α) (b : Nat) (c : Node α) : Node α :=
  match n with
  | .mk c0 c1 e m s => if b = 0 then .mk (some c) c1 e m s else .mk c0 (some c) e m s

/-- Go `delete(node.children, bit)`. -/
def Node.delChild {α : Type} (n : Node α) (b : Nat) : Node α :=
  match n with
  | .mk c0 c1 e m s => if b = 0 then .mk none c1 e m s else .mk c0 none e m s

/-- Go `len(node.children) == 0`. -/
def Node.childless {α : Type} (n : Node α) : Bool :=
  match n with
  | .mk c0 c1 _ _ _ => c0.isNone && c1.isNone

/-- A freshly allocated node: `&Node{children: make(...), metadata: make(...)}`. -/
def Node.empty {α : Type} : Node α := .mk none none false none ""

/-- Go source: `type IPTrie struct { root *Node }`. -/
structure IPTrie (α : Type) where
  root : Node α

/-- Go `NewIPTrie()`. -/
def NewIPTrie {α : Type} : IPTrie α := ⟨Node.empty⟩

/-- Error outcomes of the Go methods.  `invalidCIDR` / `invalidIP` are
the parse errors, `notFound` the two "CIDR not found" / "no matching
CIDR found" errors, and `crash` models a Go runtime panic (slice index
out of range), which is not a returned `error` at all. -/
inductive TrieErr : Type where
  | invalidCIDR : TrieErr
  | invalidIP : TrieErr
  | notFound : TrieErr
  | crash : TrieErr
deriving DecidableEq

/-- Output of Go `net.ParseCIDR`: the masked network address bytes
(`ipnet.IP`, already masked by `ip.Mask(mask)`), the pair
`ones, total := ipnet.Mask.Size()`, and the original text. -/
structure CIDR where
  ip : Bytes
  ones : Nat
  total : Nat
  text : String

/-- Go source: `func ipToBytes(ip net.IP) []byte`: `To4()` succeeds on a
4-byte address or on a 16-byte IPv4-mapped address (ten zero bytes then
`0xff 0xff`), returning the trailing 4 bytes; otherwise the 16-byte
form is used. -/
def ipToBytes (bs : Bytes) : Bytes :=
  if bs.length = 4 then bs
  else if bs.length = 16 ∧ bs.take 10 = List.replicate 10 0 ∧
      bs[10]? = some 255 ∧ bs[11]? = some 255 then bs.drop 12
  else bs

/-- Bit `i` of a byte sequence, as computed by every Go loop:
`byteIndex := i / 8; bitIndex := 7 - (i % 8);
bit := (ipBytes[byteIndex] >> uint(bitIndex)) & 1`.
`none` models the index-out-of-range panic on `ipBytes[byteIndex]`. -/
def bitAt? (bs : Bytes) (i : Nat) : Option Nat :=
  match bs[i / 8]? with
  | none => none
  | some byte => some ((byte >>> (7 - i % 8)) &&& 1)

/-- Total form of `bitAt?` for loops whose index provably stays in
bounds (`Find` / `FindAll` run `i < len(ipBytes) * 8`). -/
def bitAt (bs : Bytes) (i : Nat) : Nat :=
  ((bs.getD (i / 8) 0) >>> (7 - i % 8)) &&& 1

/-- Bits of `bs` at a list of indices; `none` as soon as one index is
out of range (the panic). -/
def bitsFrom (bs : Bytes) : List Nat → Option (List Nat)
  | [] => some []
  | i :: is =>
    match bitAt? bs i with
    | none => none
    | some b =>
      match bitsFrom bs is with
      | none => none
      | some l => some (b :: l)

/-- Bit indices consumed by Go `Insert`: the main loop `i < ones`, then
the vestigial exact-match loop, entered only when `ones == total`, whose
range `[ones, total)` is then empty. -/
def insertIdx (c : CIDR) : List Nat :=
  List.range c.ones ++
    (if c.ones = c.total then List.range' c.ones (c.total - c.ones) else [])

/-- The walk of Go `Insert` over a fixed bit list: descend (allocating
missing children) and finally set `node.isEnd = true; node.cidr = cidr;
node.metadata = metadata` on the node reached. -/
def insertBits {α : Type} (n : Node α) (bits : List Nat) (cidr : String) (m : α) : Node α :=
  match bits with
  | [] =>
    match n with
    | .mk c0 c1 _ _ _ => .mk c0 c1 true (some m) cidr
  | b :: rest =>
    let ch := (n.child b).getD Node.empty
    n.setChild b (insertBits ch rest cidr m)

/-- Go source: `func (t *IPTrie) Insert(cidr string, metadata ...) error`.
`none` input is a failed `net.ParseCIDR`.  If some byte index of the bit
walk falls outside `ipToBytes(ipnet.IP)` the Go code panics (`crash`). -/
def Insert {α : Type} (t : IPTrie α) (c? : Option CIDR) (m : α) : Except TrieErr (IPTrie α) :=
  match c? with
  | none => .error .invalidCIDR
  | some c =>
    let bs := ipToBytes c.ip
    match bitsFrom bs (insertIdx c) with
    | none => .error .crash
    | some bits => .ok ⟨insertBits t.root bits c.text m⟩

/-- The bit sequence Go `Find` / `FindAll` walk for an address:
`totalBits := len(ipBytes) * 8` bits of `ipBytes := ipToBytes(parsedIP)`,
every index in bounds by construction. -/
def addrBits (a : Bytes) : List Nat :=
  (List.range (8 * (ipToBytes a).length)).map (bitAt (ipToBytes a))

/-- The walk of Go `Find`: at each node (before consuming a bit) record
it in `lastMatch` if `isEnd`; stop on a missing child; after consuming
every bit, also record the final node if `isEnd`. -/
def findWalk {α : Type} (n : Node α) (bits : List Nat) (last : Option (Node α)) :
    Option (Node α) :=
  match bits with
  | [] => if n.isEnd then some n else last
  | b :: rest =>
    let l2 := if n.isEnd then some n else last
    match n.child b with
    | none => l2
    | some c => findWalk c rest l2

/-- Go source: `func (t *IPTrie) Find(ip string) (string, map[string]interface{}, error)`.
Returns the `cidr` and `metadata` of the deepest `isEnd` node on the
walk, `invalidIP` on a failed parse, `notFound` when no node matched. -/
def Find {α : Type} (t : IPTrie α) (a? : Option Bytes) : Except TrieErr (String × Option α) :=
  match a? with
  | none => .error .invalidIP
  | some a =>
    match findWalk t.root (addrBits a) none with
    | none => .error .notFound
    | some n => .ok (n.cidr, n.metadata)

/-- The walk of Go `FindAll`: same traversal as `Find`, appending every
`isEnd` node's `(cidr, metadata)` pair to `matches` in visit order. -/
def findAllWalk {α : Type} (n : Node α) (bits : List Nat)
    (acc : List (String × Option α)) : List (String × Option α) :=
  match bits with
  | [] => if n.isEnd then acc ++ [(n.cidr, n.metadata)] else acc
  | b :: rest =>
    let acc2 := if n.isEnd then acc ++ [(n.cidr, n.metadata)] else acc
    match n.child b with
    | none => acc2
    | some c => findAllWalk c rest acc2

/-- Go source: `func (t *IPTrie) FindAll(ip string) ([]struct{...}, error)`.
Note the Go code ends with `return matches, nil`: an empty match list is
returned with a nil error, the only error is the failed parse. -/
def FindAll {α : Type} (t : IPTrie α) (a? : Option Bytes) :
    Except TrieErr (List (String × Option α)) :=
  match a? with
  | none => .error .invalidIP
  | some a => .ok (findAllWalk t.root (addrBits a) [])

/-- Go `node.isEnd = false; node.metadata = make(...); node.cidr = ""`. -/
def clearReg {α : Type} (n : Node α) : Node α :=
  match n with
  | .mk c0 c1 _ _ _ => .mk c0 c1 false none ""

/-- The walk of Go `Delete`, with `fuel` iterations left of the loop
`for i := 0; i < totalBits; i++`.  At each level the bit is computed
first (panic `crash` if its byte index is out of range), then a missing
child is `notFound`; at the end a non-`isEnd` terminal is `notFound`,
otherwise the terminal's registration is cleared and, unwinding, each
child that now has no children and is not `isEnd` is removed from its
parent's map (the bottom-up pruning loop). -/
def deleteWalk {α : Type} (n : Node α) (bs : Bytes) (i : Nat) :
    Nat → Except TrieErr (Node α)
  | 0 => if n.isEnd then .ok (clearReg n) else .error .notFound
  | fuel + 1 =>
    match bitAt? bs i with
    | none => .error .crash
    | some b =>
      match n.child b with
      | none => .error .notFound
      | some child =>
        match deleteWalk child bs (i + 1) fuel with
        | .error e => .error e
        | .ok child2 =>
          if child2.childless && !child2.isEnd then .ok (n.delChild b)
          else .ok (n.setChild b child2)

/-- Go `Delete`'s loop bound: `totalBits := ones; if ones == total
{ totalBits = len(ipBytes) * 8 }`. -/
def deleteStop (c : CIDR) : Nat :=
  if c.ones = c.total then 8 * (ipToBytes c.ip).length else c.ones

/-- Go source: `func (t *IPTrie) Delete(cidr string) error`. -/
def Delete {α : Type} (t : IPTrie α) (c? : Option CIDR) : Except TrieErr (IPTrie α) :=
  match c? with
  | none => .error .invalidCIDR
  | some c =>
    match deleteWalk t.root (ipToBytes c.ip) 0 (deleteStop c) with
    | .error e => .error e
    | .ok r => .ok ⟨r⟩

/-- The walk of Go `Delete` specialized to a precomputed list of path
bits; proved equal to `deleteWalk` whenever no byte index of the walk
is out of range (`deleteWalk_eq_bits`). -/
def deleteBitsWalk {α : Type} : Node α → List Nat → Except TrieErr (Node α)
  | n, [] => if n.isEnd then .ok (clearReg n) else .error .notFound
  | n, b :: rest =>
    match n.child b with
    | none => .error .notFound
    | some child =>
      match deleteBitsWalk child rest with
      | .error e => .error e
      | .ok child2 =>
        if child2.childless && !child2.isEnd then .ok (n.delChild b)
        else .ok (n.setChild b child2)

/-!  Specification-side definitions (stated from the spec's words, to be
compared with the code's behavior). -/

/-- The registration stored at a given bit path: `some (cidr, metadata)`
iff the node at that exact path exists and is a registered prefix. -/
def regAt? {α : Type} (n : Node α) : List Nat → Option (String × Option α)
  | [] => if n.isEnd then some (n.cidr, n.metadata) else none
  | b :: rest =>
    match n.child b with
    | none => none
    | some c => regAt? c rest

/-- Spec: the registered prefixes whose bit sequences are prefixes of
the address's bit sequence, ordered ascending by prefix length
(`List.inits` lists the prefixes shortest first). -/
def specMatches {α : Type} (n : Node α) (bits : List Nat) : List (String × Option α) :=
  bits.inits.filterMap (regAt? n)

/-- Spec: the registered matching prefix of greatest prefix length
(first hit scanning the address's prefixes from longest to shortest). -/
def specBest {α : Type} (n : Node α) (bits : List Nat) : Option (String × Option α) :=
  bits.inits.reverse.findSome? (regAt? n)

/-- The bit path Go `Insert` consumes for a CIDR (the first `ones` bits
of `ipToBytes(ipnet.IP)`); `none` iff the walk would panic. -/
def pathBits (c : CIDR) : Option (List Nat) :=
  bitsFrom (ipToBytes c.ip) (List.range c.ones)

/-- The bit path Go `Delete` consumes for a CIDR; `none` iff the walk
would panic before a missing child stops it. -/
def deletePathBits (c : CIDR) : Option (List Nat) :=
  bitsFrom (ipToBytes c.ip) (List.range (deleteStop c))

/-- Pruning invariant on a subtree: every node with no children is a
registered prefix. -/
inductive Good {α : Type} : Node α → Prop where
  | intro : ∀ (c0 c1 : Option (Node α)) (e : Bool) (m : Option α) (s : String),
      (c0 = none → c1 = none → e = true) →
      (∀ x, c0 = some x → Good x) →
      (∀ x, c1 = some x → Good x) →
      Good (Node.mk c0 c1 e m s)

/-- The pruning invariant exactly as the spec states it: no node of the
trie, the root included, has zero children while being unregistered. -/
def DeadFree {α : Type} (t : IPTrie α) : Prop := Good t.root

/-- The invariant the code actually maintains: every node BELOW the
root satisfies the pruning invariant (the root is never pruned). -/
def TrieInv {α : Type} (t : IPTrie α) : Prop :=
  ∀ b x, t.root.child b = some x → Good x

/-- Trie states reachable from `NewIPTrie` by the public operations.
`Find` and `FindAll` do not mutate the trie, so only `Insert` and
`Delete` produce new states; a failed operation leaves the old state. -/
inductive Reachable {α : Type} : IPTrie α → Prop where
  | new : Reachable NewIPTrie
  | ins : ∀ {t t' : IPTrie α} {c : Option CIDR} {m : α},
      Reachable t → Insert t c m = .ok t' → Reachable t'
  | del : ∀ {t t' : IPTrie α} {c : Option CIDR},
      Reachable t → Delete t c = .ok t' → Reachable t'

/-!  Concrete parsed values used by witnesses and counterexamples.
The byte sequences and `Mask.Size()` pairs are exactly what Go's
`net.ParseCIDR` / `net.ParseIP` produce for the quoted texts. -/

/-- Parsed `net.ParseCIDR("::ffff:1.2.3.4/128")`: the address parses in
IPv6 form (16 bytes, IPv4-mapped), the mask is 128 bits wide. -/
def v4mapped128 : CIDR := ⟨[0, 0, 0, 0, 0, 0, 0, 0, 0, 0, 255, 255, 1, 2, 3, 4], 128, 128, "::ffff:1.2.3.4/128"⟩

/-- Parsed `net.ParseCIDR("::ffff:1.2.3.4/104")`: masking keeps 13 bytes, so
the masked address `::ffff:1.0.0.0` is still IPv4-mapped while
`ones = 104` and `ones ≠ total`. -/
def v4mapped104 : CIDR := ⟨[0, 0, 0, 0, 0, 0, 0, 0, 0, 0, 255, 255, 1, 0, 0, 0], 104, 128, "::ffff:1.2.3.4/104"⟩

/-- Parsed `net.ParseCIDR("192.168.0.0/16")`. -/
def cidr192_16 : CIDR := ⟨[192, 168, 0, 0], 16, 32, "192.168.0.0/16"⟩

/-- Parsed `net.ParseCIDR("10.0.0.0/8")`. -/
def cidr10_8 : CIDR := ⟨[10, 0, 0, 0], 8, 32, "10.0.0.0/8"⟩

/-- Parsed `net.ParseCIDR("10.1.0.0/16")`. -/
def cidr10_1_16 : CIDR := ⟨[10, 1, 0, 0], 16, 32, "10.1.0.0/16"⟩

/-- Parsed `net.ParseCIDR("1.0.0.0/32")`. -/
def cidr1_32 : CIDR := ⟨[1, 0, 0, 0], 32, 32, "1.0.0.0/32"⟩

/-- Parsed `net.ParseCIDR("128.0.0.0/1")`. -/
def cidr128_1 : CIDR := ⟨[128, 0, 0, 0], 1, 32, "128.0.0.0/1"⟩

/-- Parsed `net.ParseIP("a00::1")`: a plain (not IPv4-mapped) IPv6 address
whose first 8 bits are `00001010`, the same as IPv4 `10.x.x.x`. -/
def addr6 : Bytes := [10, 0, 0, 0, 0, 0, 0, 0, 0, 0, 0, 0, 0, 0, 0, 1]

/-- The first 16 bits of `10.1.0.0`. -/
def path10_1 : List Nat := [0, 0, 0, 0, 1, 0, 1, 0, 0, 0, 0, 0, 0, 0, 0, 1]

/-- The first 16 bits of `192.168.0.0`. -/
def path192 : List Nat := [1, 1, 0, 0, 0, 0, 0, 0, 1, 0, 1, 0, 1, 0, 0, 0]

/-- Trie holding only `10.0.0.0/8 ↦ 3`. -/
def trieA0 : IPTrie Nat := (Insert NewIPTrie (some cidr10_8) 3).toOption.getD NewIPTrie

/-- Trie holding `10.0.0.0/8 ↦ 3` and `10.1.0.0/16 ↦ 4`. -/
def trieA : IPTrie Nat := (Insert trieA0 (some cidr10_1_16) 4).toOption.getD trieA0

/-- State `trieA` after `Delete("10.1.0.0/16")`. -/
def trieA2 : IPTrie Nat := (Delete trieA (some cidr10_1_16)).toOption.getD trieA

/-- Trie holding only `1.0.0.0/32 ↦ 5`. -/
def trieHost : IPTrie Nat := (Insert NewIPTrie (some cidr1_32) 5).toOption.getD NewIPTrie

/-- Trie holding only `128.0.0.0/1 ↦ 5`. -/
def trieHalf : IPTrie Nat := (Insert NewIPTrie (some cidr128_1) 5).toOption.getD NewIPTrie

/-- State `trieHalf` after `Delete("128.0.0.0/1")`: insert + delete
starting from the empty trie. -/
def trieHalfGone : IPTrie Nat := (Delete trieHalf (some cidr128_1)).toOption.getD trieHalf

/-! ### Basic lemmas: node accessors and bit values -/

theorem Node.child_setChild_self {α : Type} (n : Node α) (b : Nat) (c : Node α) :
    (n.setChild b c).child b = some c := by
  cases n with
  | mk c0 c1 e m s => by_cases hb : b = 0 <;> simp [Node.setChild, Node.child, hb]

theorem Node.child_setChild_ne {α : Type} (n : Node α) {b b' : Nat} (c : Node α)
    (hb : b ≤ 1) (hb' : b' ≤ 1) (hne : b ≠ b') :
    (n.setChild b c).child b' = n.child b' := by
  cases n with
  | mk c0 c1 e m s =>
    rcases Nat.le_one_iff_eq_zero_or_eq_one.mp hb with rfl | rfl <;>
      rcases Nat.le_one_iff_eq_zero_or_eq_one.mp hb' with rfl | rfl <;>
      simp at hne ⊢ <;> simp [Node.setChild, Node.child]

theorem Node.child_delChild_self {α : Type} (n : Node α) (b : Nat) :
    (n.delChild b).child b = none := by
  cases n with
  | mk c0 c1 e m s => by_cases hb : b = 0 <;> simp [Node.delChild, Node.child, hb]

theorem Node.child_delChild_ne {α : Type} (n : Node α) {b b' : Nat}
    (hb : b ≤ 1) (hb' : b' ≤ 1) (hne : b ≠ b') :
    (n.delChild b).child b' = n.child b' := by
  cases n with
  | mk c0 c1 e m s =>
    rcases Nat.le_one_iff_eq_zero_or_eq_one.mp hb with rfl | rfl <;>
      rcases Nat.le_one_iff_eq_zero_or_eq_one.mp hb' with rfl | rfl <;>
      simp at hne ⊢ <;> simp [Node.delChild, Node.child]

theorem Node.isEnd_setChild {α : Type} (n : Node α) (b : Nat) (c : Node α) :
    (n.setChild b c).isEnd = n.isEnd := by
  cases n with
  | mk c0 c1 e m s => by_cases hb : b = 0 <;> simp [Node.setChild, Node.isEnd, hb]

theorem Node.metadata_setChild {α : Type} (n : Node α) (b : Nat) (c : Node α) :
    (n.setChild b c).metadata = n.metadata := by
  cases n with
  | mk c0 c1 e m s => by_cases hb : b = 0 <;> simp [Node.setChild, Node.metadata, hb]

theorem Node.cidr_setChild {α : Type} (n : Node α) (b : Nat) (c : Node α) :
    (n.setChild b c).cidr = n.cidr := by
  cases n with
  | mk c0 c1 e m s => by_cases hb : b = 0 <;> simp [Node.setChild, Node.cidr, hb]

theorem Node.isEnd_delChild {α : Type} (n : Node α) (b : Nat) :
    (n.delChild b).isEnd = n.isEnd := by
  cases n with
  | mk c0 c1 e m s => by_cases hb : b = 0 <;> simp [Node.delChild, Node.isEnd, hb]

theorem Node.metadata_delChild {α : Type} (n : Node α) (b : Nat) :
    (n.delChild b).metadata = n.metadata := by
  cases n with
  | mk c0 c1 e m s => by_cases hb : b = 0 <;> simp [Node.delChild, Node.metadata, hb]

theorem Node.cidr_delChild {α : Type} (n : Node α) (b : Nat) :
    (n.delChild b).cidr = n.cidr := by
  cases n with
  | mk c0 c1 e m s => by_cases hb : b = 0 <;> simp [Node.delChild, Node.cidr, hb]

theorem Node.childless_setChild {α : Type} (n : Node α) (b : Nat) (c : Node α) :
    (n.setChild b c).childless = false := by
  cases n with
  | mk c0 c1 e m s => by_cases hb : b = 0 <;> simp [Node.setChild, Node.childless, hb]

theorem Node.isEnd_clearReg {α : Type} (n : Node α) : (clearReg n).isEnd = false := by
  cases n with
  | mk c0 c1 e m s => simp [clearReg, Node.isEnd]

theorem Node.child_clearReg {α : Type} (n : Node α) (b : Nat) :
    (clearReg n).child b = n.child b := by
  cases n with
  | mk c0 c1 e m s => simp [clearReg, Node.child]

theorem Node.childless_iff {α : Type} (n : Node α) :
    n.childless = true ↔ n.child 0 = none ∧ n.child 1 = none := by
  cases n with
  | mk c0 c1 e m s =>
    simp [Node.childless, Node.child, Option.isNone_iff_eq_none]

theorem bitAt?_le_one {bs : Bytes} {i b : Nat} (h : bitAt? bs i = some b) : b ≤ 1 := by
  unfold bitAt? at h
  cases hx : bs[i / 8]? with
  | none => rw [hx] at h; cases h
  | some byte =>
    rw [hx] at h
    have hb := Option.some.inj h
    subst hb
    exact Nat.and_le_right

theorem bitsFrom_le_one {bs : Bytes} :
    ∀ {is l : List Nat}, bitsFrom bs is = some l → ∀ x ∈ l, x ≤ 1 := by
  intro is
  induction is with
  | nil =>
    intro l h x hx
    unfold bitsFrom at h
    cases h
    cases hx
  | cons i is ih =>
    intro l h x hx
    unfold bitsFrom at h
    cases h1 : bitAt? bs i with
    | none => rw [h1] at h; cases h
    | some b =>
      rw [h1] at h
      cases h2 : bitsFrom bs is with
      | none => rw [h2] at h; cases h
      | some l2 =>
        rw [h2] at h
        cases h
        rcases List.mem_cons.mp hx with rfl | hx2
        · exact bitAt?_le_one h1
        · exact ih h2 x hx2

theorem addrBits_le_one (a : Bytes) : ∀ x ∈ addrBits a, x ≤ 1 := by
  intro x hx
  unfold addrBits at hx
  rcases List.mem_map.mp hx with ⟨i, _, rfl⟩
  exact Nat.and_le_right

theorem mem_inits_le_one {a : Bytes} {q : List Nat} (hq : q ∈ (addrBits a).inits) :
    ∀ x ∈ q, x ≤ 1 :=
  fun x hx => addrBits_le_one a x (((List.mem_inits _ _).mp hq).subset hx)

theorem regAt?_empty {α : Type} : ∀ q : List Nat, regAt? (Node.empty : Node α) q = none := by
  intro q
  cases q with
  | nil => simp [regAt?, Node.empty, Node.isEnd]
  | cons b rest => simp [regAt?, Node.empty, Node.child]

theorem regAt?_dead {α : Type} {n : Node α} (h1 : n.childless = true)
    (h2 : n.isEnd = false) : ∀ q : List Nat, regAt? n q = none := by
  intro q
  cases q with
  | nil => simp [regAt?, h2]
  | cons b rest =>
    rcases (Node.childless_iff n).mp h1 with ⟨hc0, hc1⟩
    have hb : n.child b = none := by
      cases n with
      | mk c0 c1 e m s =>
        simp only [Node.child] at hc0 hc1 ⊢
        by_cases hb0 : b = 0 <;> simp [hb0] at hc0 hc1 ⊢ <;> simp [hc0, hc1]
    simp [regAt?, hb]

/-! ### The `Find` / `FindAll` walks versus the declarative match list -/

theorem findAllWalk_acc {α : Type} (bits : List Nat) (n : Node α)
    (acc : List (String × Option α)) :
    findAllWalk n bits acc = acc ++ findAllWalk n bits [] := by
  induction bits generalizing n acc with
  | nil => by_cases h : n.isEnd <;> simp [findAllWalk, h]
  | cons b rest ih =>
    by_cases h : n.isEnd
    · cases hc : n.child b with
      | none => simp [findAllWalk, h, hc]
      | some c =>
        have e1 : findAllWalk n (b :: rest) acc =
            findAllWalk c rest (acc ++ [(n.cidr, n.metadata)]) := by
          simp [findAllWalk, h, hc]
        have e2 : findAllWalk n (b :: rest) [] =
            findAllWalk c rest [(n.cidr, n.metadata)] := by
          simp [findAllWalk, h, hc]
        rw [e1, e2, ih c (acc ++ [(n.cidr, n.metadata)]), ih c [(n.cidr, n.metadata)],
          List.append_assoc]
    · cases hc : n.child b with
      | none => simp [findAllWalk, h, hc]
      | some c =>
        have e1 : findAllWalk n (b :: rest) acc = findAllWalk c rest acc := by
          simp [findAllWalk, h, hc]
        have e2 : findAllWalk n (b :: rest) [] = findAllWalk c rest [] := by
          simp [findAllWalk, h, hc]
        rw [e1, e2, ih c acc]

theorem findAllWalk_eq_specMatches {α : Type} (bits : List Nat) (n : Node α) :
    findAllWalk n bits [] = specMatches n bits := by
  induction bits generalizing n with
  | nil =>
    unfold specMatches
    by_cases h : n.isEnd <;> simp [findAllWalk, regAt?, List.inits, h]
  | cons b rest ih =>
    have hmap : List.filterMap (regAt? n) (List.map (fun t => b :: t) rest.inits) =
        List.filterMap (fun t => regAt? n (b :: t)) rest.inits := by
      rw [List.filterMap_map]
      rfl
    have hinit : (b :: rest).inits = [] :: rest.inits.map (fun t => b :: t) := rfl
    cases hc : n.child b with
    | none =>
      have hnone : List.filterMap (fun t => regAt? n (b :: t)) rest.inits = [] :=
        List.filterMap_eq_nil_iff.mpr (fun t _ => by simp [regAt?, hc])
      by_cases h : n.isEnd
      · have lhs : findAllWalk n (b :: rest) [] = [(n.cidr, n.metadata)] := by
          simp [findAllWalk, h, hc]
        have rhs : specMatches n (b :: rest) = [(n.cidr, n.metadata)] := by
          unfold specMatches
          rw [hinit, List.filterMap_cons_some
              (by simp [regAt?, h] : regAt? n [] = some (n.cidr, n.metadata)),
            hmap, hnone]
        rw [lhs, rhs]
      · have lhs : findAllWalk n (b :: rest) [] = [] := by
          simp [findAllWalk, h, hc]
        have rhs : specMatches n (b :: rest) = [] := by
          unfold specMatches
          rw [hinit, List.filterMap_cons_none (by simp [regAt?, h] : regAt? n [] = none),
            hmap, hnone]
        rw [lhs, rhs]
    | some c =>
      have hsome : List.filterMap (fun t => regAt? n (b :: t)) rest.inits =
          List.filterMap (regAt? c) rest.inits :=
        List.filterMap_congr (fun t _ => by simp [regAt?, hc])
      by_cases h : n.isEnd
      · have lhs : findAllWalk n (b :: rest) [] =
            (n.cidr, n.metadata) :: specMatches c rest := by
          have e : findAllWalk n (b :: rest) [] =
              findAllWalk c rest [(n.cidr, n.metadata)] := by
            simp [findAllWalk, h, hc]
          rw [e, findAllWalk_acc, ih c, List.singleton_append]
        have rhs : specMatches n (b :: rest) =
            (n.cidr, n.metadata) :: specMatches c rest := by
          unfold specMatches
          rw [hinit, List.filterMap_cons_some (by simp [regAt?, h] : regAt? n [] = some (n.cidr, n.metadata)),
            hmap, hsome]
        rw [lhs, rhs]
      · have lhs : findAllWalk n (b :: rest) [] = specMatches c rest := by
          have e : findAllWalk n (b :: rest) [] = findAllWalk c rest [] := by
            simp [findAllWalk, h, hc]
          rw [e, ih c]
        have rhs : specMatches n (b :: rest) = specMatches c rest := by
          unfold specMatches
          rw [hinit, List.filterMap_cons_none (by simp [regAt?, h] : regAt? n [] = none),
            hmap, hsome]
        rw [lhs, rhs]

theorem findWalk_eq_getLast {α : Type} (bits : List Nat) (n : Node α)
    (last : Option (Node α)) :
    (findWalk n bits last).map (fun x => (x.cidr, x.metadata)) =
      ((findAllWalk n bits []).getLast?).or
        (last.map (fun x => (x.cidr, x.metadata))) := by
  induction bits generalizing n last with
  | nil => by_cases h : n.isEnd <;> simp [findWalk, findAllWalk, h]
  | cons b rest ih =>
    cases hc : n.child b with
    | none =>
      by_cases h : n.isEnd <;> simp [findWalk, findAllWalk, h, hc]
    | some c =>
      by_cases h : n.isEnd
      · have e1 : findWalk n (b :: rest) last = findWalk c rest (some n) := by
          simp [findWalk, h, hc]
        have e2 : findAllWalk n (b :: rest) [] =
            findAllWalk c rest [(n.cidr, n.metadata)] := by
          simp [findAllWalk, h, hc]
        rw [e1, e2, findAllWalk_acc, ih c (some n), List.getLast?_append,
          Option.or_assoc]
        simp
      · have e1 : findWalk n (b :: rest) last = findWalk c rest last := by
          simp [findWalk, h, hc]
        have e2 : findAllWalk n (b :: rest) [] = findAllWalk c rest [] := by
          simp [findAllWalk, h, hc]
        rw [e1, e2, ih c last]

theorem Find_eq_getLast {α : Type} (t : IPTrie α) (a : Bytes) :
    Find t (some a) =
      match (findAllWalk t.root (addrBits a) []).getLast? with
      | none => .error .notFound
      | some e => .ok e := by
  have h := findWalk_eq_getLast (addrBits a) t.root none
  have hor : ∀ o : Option (String × Option α),
      o.or (Option.map (fun x : Node α => (x.cidr, x.metadata)) none) = o := by
    intro o
    cases o <;> rfl
  rw [hor] at h
  cases hw : findWalk t.root (addrBits a) none with
  | none =>
    rw [hw] at h
    have hl : (findAllWalk t.root (addrBits a) []).getLast? = none := h.symm
    rw [hl]
    show (match findWalk t.root (addrBits a) none with
      | none => (.error .notFound : Except TrieErr (String × Option α))
      | some n => .ok (n.cidr, n.metadata)) = .error .notFound
    rw [hw]
  | some x =>
    rw [hw] at h
    have hl : (findAllWalk t.root (addrBits a) []).getLast? =
        some (x.cidr, x.metadata) := h.symm
    rw [hl]
    show (match findWalk t.root (addrBits a) none with
      | none => (.error .notFound : Except TrieErr (String × Option α))
      | some n => .ok (n.cidr, n.metadata)) = .ok (x.cidr, x.metadata)
    rw [hw]

theorem findSomeQ_eq_headQ {β γ : Type} (f : β → Option γ) (l : List β) :
    l.findSome? f = (l.filterMap f).head? := by
  induction l with
  | nil => rfl
  | cons a l ih =>
    cases h : f a with
    | none =>
      rw [List.findSome?_cons, h, List.filterMap_cons_none h]
      exact ih
    | some b =>
      rw [List.findSome?_cons, h, List.filterMap_cons_some h]
      rfl

theorem specBest_eq_getLast {α : Type} (n : Node α) (bits : List Nat) :
    specBest n bits = (specMatches n bits).getLast? := by
  unfold specBest specMatches
  rw [findSomeQ_eq_headQ, List.filterMap_reverse, List.head?_reverse]

/-! ### Claims about the lookup operations -/

/-- Claim C1:  For every parsed address, `Find` (FindBest) fails with the
not-found error when no registered prefix's bit sequence is a prefix of
the address's bit sequence, and otherwise returns the CIDR text and
metadata of the matching registered prefix of greatest prefix length
(`specBest` scans the address's prefixes from longest to shortest; the
zero-length prefix at the root is among them). -/
theorem find_returns_longest_match {α : Type} (t : IPTrie α) (a : Bytes) :
    Find t (some a) =
      match specBest t.root (addrBits a) with
      | none => .error .notFound
      | some e => .ok e := by
  rw [Find_eq_getLast, findAllWalk_eq_specMatches, ← specBest_eq_getLast]

/-- Claim C2:  For every parsed address, `FindAll` succeeds and returns
exactly the registered prefixes whose bit sequences are prefixes of the
address's bit sequence, in ascending prefix-length order
(`specMatches` filters the address's prefixes as listed by
`List.inits`, shortest first); on an unparseable address it fails with
the invalid-address error. -/
theorem findAll_returns_matches_ascending {α : Type} (t : IPTrie α) (a? : Option Bytes) :
    FindAll t a? =
      match a? with
      | none => .error .invalidIP
      | some a => .ok (specMatches t.root (addrBits a)) := by
  cases a? with
  | none => rfl
  | some a =>
    show FindAll t (some a) = .ok (specMatches t.root (addrBits a))
    have hFA : FindAll t (some a) = .ok (findAllWalk t.root (addrBits a) []) := rfl
    rw [hFA, findAllWalk_eq_specMatches]

/-- Claim C3 (counterexample):  The claim says that an address that parses
but is covered by no registered prefix makes `FindAll` fail with the
not-found error that `Find` reports; but on the empty trie and the
parsed address `10.0.0.1`, `Find` reports not-found while `FindAll`
returns a nil error together with an empty sequence. -/
theorem findAll_empty_not_error_cex :
    FindAll (NewIPTrie : IPTrie Nat) (some [10, 0, 0, 1]) = .ok [] ∧
      Find (NewIPTrie : IPTrie Nat) (some [10, 0, 0, 1]) = .error .notFound :=
  ⟨rfl, rfl⟩

/-- Claim C3 (amended):  On every parsed address `FindAll` succeeds — an
empty result is returned with a nil error, and it is empty exactly when
`Find` fails with not-found; only an unparseable address makes
`FindAll` fail (with the invalid-address error, as `Find` also does). -/
theorem findAll_no_match_is_ok_empty {α : Type} (t : IPTrie α) (a : Bytes) :
    (∃ l, FindAll t (some a) = .ok l) ∧
      (FindAll t (some a) = .ok [] ↔ Find t (some a) = .error .notFound) ∧
      FindAll t (none : Option Bytes) = .error .invalidIP ∧
      Find t (none : Option Bytes) = .error .invalidIP := by
  refine ⟨⟨findAllWalk t.root (addrBits a) [], rfl⟩, ?_, rfl, rfl⟩
  have hFA : FindAll t (some a) = .ok (findAllWalk t.root (addrBits a) []) := rfl
  rw [Find_eq_getLast, hFA]
  constructor
  · intro h
    have h2 : findAllWalk t.root (addrBits a) [] = [] := Except.ok.inj h
    rw [h2]
    rfl
  · intro h
    cases hl : (findAllWalk t.root (addrBits a) []).getLast? with
    | none =>
      rw [List.getLast?_eq_none_iff.mp hl]
    | some e =>
      rw [hl] at h
      cases h

/-! ### Lemmas about `Insert` -/

theorem insertIdx_eq (c : CIDR) : insertIdx c = List.range c.ones := by
  unfold insertIdx
  by_cases h : c.ones = c.total <;> simp [h]

theorem Insert_eq {α : Type} (t : IPTrie α) (c : CIDR) (m : α) {pb : List Nat}
    (hp : pathBits c = some pb) :
    Insert t (some c) m = .ok ⟨insertBits t.root pb c.text m⟩ := by
  have hp2 : bitsFrom (ipToBytes c.ip) (List.range c.ones) = some pb := hp
  show (match bitsFrom (ipToBytes c.ip) (insertIdx c) with
    | none => (.error .crash : Except TrieErr (IPTrie α))
    | some bits => .ok ⟨insertBits t.root bits c.text m⟩) =
      .ok ⟨insertBits t.root pb c.text m⟩
  rw [insertIdx_eq, hp2]

theorem regAt?_insertBits {α : Type} (cidr : String) (m : α) :
    ∀ (bits : List Nat) (n : Node α) (q : List Nat),
      (∀ x ∈ bits, x ≤ 1) → (∀ x ∈ q, x ≤ 1) →
      regAt? (insertBits n bits cidr m) q =
        if q = bits then some (cidr, some m) else regAt? n q := by
  intro bits
  induction bits with
  | nil =>
    intro n q _ _
    cases q with
    | nil =>
      cases n with
      | mk c0 c1 e mm s =>
        simp [insertBits, regAt?, Node.isEnd, Node.cidr, Node.metadata]
    | cons b' q' =>
      cases n with
      | mk c0 c1 e mm s =>
        simp [insertBits, regAt?, Node.child]
  | cons b rest ih =>
    intro n q hb hq
    have hb1 : b ≤ 1 := hb b (List.mem_cons_self b rest)
    have hbr : ∀ x ∈ rest, x ≤ 1 := fun x hx => hb x (List.mem_cons_of_mem b hx)
    have hX : insertBits n (b :: rest) cidr m =
        n.setChild b (insertBits ((n.child b).getD Node.empty) rest cidr m) := rfl
    cases q with
    | nil =>
      rw [hX]
      have h1 := Node.isEnd_setChild n b
        (insertBits ((n.child b).getD Node.empty) rest cidr m)
      have h2 := Node.cidr_setChild n b
        (insertBits ((n.child b).getD Node.empty) rest cidr m)
      have h3 := Node.metadata_setChild n b
        (insertBits ((n.child b).getD Node.empty) rest cidr m)
      simp [regAt?, h1, h2, h3]
    | cons b' q' =>
      have hq1 : b' ≤ 1 := hq b' (List.mem_cons_self b' q')
      have hqr : ∀ x ∈ q', x ≤ 1 := fun x hx => hq x (List.mem_cons_of_mem b' hx)
      by_cases hbb : b' = b
      · subst hbb
        rw [hX]
        have hcs := Node.child_setChild_self n b'
          (insertBits ((n.child b').getD Node.empty) rest cidr m)
        have lhs : regAt?
            (n.setChild b' (insertBits ((n.child b').getD Node.empty) rest cidr m))
            (b' :: q') =
            regAt? (insertBits ((n.child b').getD Node.empty) rest cidr m) q' := by
          simp [regAt?, hcs]
        rw [lhs, ih _ q' hbr hqr]
        by_cases hqq : q' = rest
        · simp [hqq]
        · rw [if_neg hqq,
            if_neg (fun hcon : b' :: q' = b' :: rest => by
              injection hcon with h1 h2
              exact hqq h2)]
          cases hc : n.child b' with
          | none => simp [regAt?, hc, regAt?_empty]
          | some c => simp [regAt?, hc]
      · rw [hX]
        have hcs := Node.child_setChild_ne n
          (insertBits ((n.child b).getD Node.empty) rest cidr m)
          hb1 hq1 (fun h => hbb h.symm)
        have lhs : regAt?
            (n.setChild b (insertBits ((n.child b).getD Node.empty) rest cidr m))
            (b' :: q') = regAt? n (b' :: q') := by
          simp [regAt?, hcs]
        rw [lhs,
          if_neg (fun hcon : b' :: q' = b :: rest => by
            injection hcon with h1 h2
            exact hbb h1)]

theorem getLast?_of_all_eq {β : Type} {l : List β} {e : β} (hne : l ≠ [])
    (h : ∀ x ∈ l, x = e) : l.getLast? = some e := by
  rw [List.getLast?_eq_getLast l hne]
  exact congrArg some (h _ (List.getLast_mem hne))

/-! ### Claims about `Insert` -/

/-- Claim C4 (code bug):  The claim says every parser-accepted CIDR makes
`Insert` succeed with all byte indices in bounds.  But for
`::ffff:1.2.3.4/128` — accepted by `net.ParseCIDR` (16-byte address,
`ones = total = 128`) — `ipToBytes` shortens the IPv4-mapped masked
address to 4 bytes while the bit loop still runs `ones = 128`
iterations, so the Go code panics with an index out of range
(modelled by the `crash` outcome). -/
theorem insert_mapped_v6_crashes :
    (v4mapped128.ip.length = 16 ∧ v4mapped128.total = 8 * v4mapped128.ip.length ∧
      v4mapped128.ones ≤ v4mapped128.total) ∧
      Insert (NewIPTrie : IPTrie Nat) (some v4mapped128) 0 = .error .crash :=
  ⟨⟨rfl, rfl, by decide⟩, rfl⟩

/-- Claim C5 (counterexample):  The round-trip claim quantifies over every
valid CIDR, but for the valid CIDR `::ffff:1.2.3.4/128` the insert into
a new trie already panics (index out of range), so no lookup can
return its metadata. -/
theorem roundtrip_mapped_cex :
    Insert (NewIPTrie : IPTrie Nat) (some v4mapped128) 5 = .error .crash := rfl

/-- Claim C5 (amended):  For every valid CIDR whose insert bit walk stays
inside `ipToBytes` of its masked address (`pathBits` defined — this
excludes only IPv6-form CIDRs with an IPv4-mapped masked address and
prefix length above 32), and every address whose bit sequence starts
with the CIDR's `ones` prefix bits, inserting into a new trie and then
calling `Find` (FindBest) succeeds and returns that CIDR's text and
metadata. -/
theorem roundtrip_insert_find {α : Type} (c : CIDR) (m : α) (a : Bytes)
    (pb : List Nat) (hp : pathBits c = some pb)
    (hpre : (addrBits a).take c.ones = pb) :
    ∃ t', Insert (NewIPTrie : IPTrie α) (some c) m = .ok t' ∧
      Find t' (some a) = .ok (c.text, some m) := by
  refine ⟨⟨insertBits (NewIPTrie : IPTrie α).root pb c.text m⟩,
    Insert_eq NewIPTrie c m hp, ?_⟩
  have hp2 : bitsFrom (ipToBytes c.ip) (List.range c.ones) = some pb := hp
  have hpb1 : ∀ x ∈ pb, x ≤ 1 := bitsFrom_le_one hp2
  have hroot : (NewIPTrie : IPTrie α).root = Node.empty := rfl
  have hall : ∀ q ∈ (addrBits a).inits,
      regAt? (insertBits (NewIPTrie : IPTrie α).root pb c.text m) q =
        (fun q => if q = pb then some (c.text, some m) else none) q := by
    intro q hq
    rw [hroot, regAt?_insertBits c.text m pb Node.empty q hpb1 (mem_inits_le_one hq)]
    by_cases hqq : q = pb
    · simp [hqq]
    · simp [hqq, regAt?_empty]
  have hfm : specMatches (insertBits (NewIPTrie : IPTrie α).root pb c.text m)
      (addrBits a) =
      List.filterMap (fun q => if q = pb then some (c.text, some m) else none)
        (addrBits a).inits := by
    unfold specMatches
    exact List.filterMap_congr hall
  have hmem : pb ∈ (addrBits a).inits := by
    rw [List.mem_inits, ← hpre]
    exact List.take_prefix _ _
  have hein : (c.text, some m) ∈
      List.filterMap (fun q => if q = pb then some (c.text, some m) else none)
        (addrBits a).inits :=
    List.mem_filterMap.mpr ⟨pb, hmem, by simp⟩
  have hallE : ∀ x ∈
      List.filterMap (fun q => if q = pb then some (c.text, some m) else none)
        (addrBits a).inits, x = (c.text, some m) := by
    intro x hx
    rcases List.mem_filterMap.mp hx with ⟨q, _, hfq⟩
    by_cases hqq : q = pb
    · rw [if_pos hqq] at hfq
      exact (Option.some.inj hfq).symm
    · rw [if_neg hqq] at hfq
      cases hfq
  have hlast : (specMatches (insertBits (NewIPTrie : IPTrie α).root pb c.text m)
      (addrBits a)).getLast? = some (c.text, some m) := by
    rw [hfm]
    exact getLast?_of_all_eq (List.ne_nil_of_mem hein) hallE
  have hrw : (⟨insertBits (NewIPTrie : IPTrie α).root pb c.text m⟩ : IPTrie α).root =
      insertBits (NewIPTrie : IPTrie α).root pb c.text m := rfl
  rw [Find_eq_getLast, hrw, findAllWalk_eq_specMatches, hlast]

/-- Claim C5 (witness):  Inserting `192.168.0.0/16 ↦ 5` into a new trie,
`Find("192.168.1.100")` returns that entry. -/
theorem roundtrip_insert_find_witness :
    ∃ t', Insert (NewIPTrie : IPTrie Nat) (some cidr192_16) 5 = .ok t' ∧
      Find t' (some [192, 168, 1, 100]) = .ok ("192.168.0.0/16", some 5) :=
  roundtrip_insert_find cidr192_16 5 [192, 168, 1, 100] path192 rfl rfl

/-- Claim C9:  IPv4 and IPv6 entries share one untagged bit trie: inserting a
CIDR that parses to a 4-byte (IPv4) path of `ones = L` bits into any
trie and looking up a 16-byte (IPv6, not IPv4-mapped) address whose
first `L` bits coincide with the prefix's bits, `FindAll` reports the
IPv4 entry as a match for the IPv6 address. -/
theorem cross_family_match {α : Type} (t : IPTrie α) (c : CIDR) (m : α) (a : Bytes)
    (pb : List Nat) (_h4 : (ipToBytes c.ip).length = 4)
    (_h16 : (ipToBytes a).length = 16) (hp : pathBits c = some pb)
    (hpre : (addrBits a).take c.ones = pb) :
    ∃ t' l, Insert t (some c) m = .ok t' ∧ FindAll t' (some a) = .ok l ∧
      (c.text, some m) ∈ l := by
  refine ⟨⟨insertBits t.root pb c.text m⟩,
    specMatches (insertBits t.root pb c.text m) (addrBits a),
    Insert_eq t c m hp, ?_, ?_⟩
  · have hFA : FindAll (⟨insertBits t.root pb c.text m⟩ : IPTrie α) (some a) =
        .ok (findAllWalk (insertBits t.root pb c.text m) (addrBits a) []) := rfl
    rw [hFA, findAllWalk_eq_specMatches]
  · have hp2 : bitsFrom (ipToBytes c.ip) (List.range c.ones) = some pb := hp
    have hpb1 : ∀ x ∈ pb, x ≤ 1 := bitsFrom_le_one hp2
    have hmem : pb ∈ (addrBits a).inits := by
      rw [List.mem_inits, ← hpre]
      exact List.take_prefix _ _
    unfold specMatches
    refine List.mem_filterMap.mpr ⟨pb, hmem, ?_⟩
    rw [regAt?_insertBits c.text m pb t.root pb hpb1 hpb1]
    simp

/-- Claim C9 (witness):  Inserting IPv4 `10.0.0.0/8 ↦ 7` into a new trie,
`FindAll` on the IPv6 address `a00::1` (first 8 bits `00001010`)
reports the IPv4 entry. -/
theorem cross_family_match_witness :
    ∃ t' l, Insert (NewIPTrie : IPTrie Nat) (some cidr10_8) 7 = .ok t' ∧
      FindAll t' (some addr6) = .ok l ∧ ("10.0.0.0/8", some 7) ∈ l :=
  cross_family_match NewIPTrie cidr10_8 7 addr6 [0, 0, 0, 0, 1, 0, 1, 0]
    rfl rfl rfl rfl

/-- Claim C10:  `Find` is determined by `FindAll`: both fail identically on
an unparseable address, and on a parsed address `Find` fails with
not-found exactly when `FindAll`'s sequence is empty and otherwise
returns its last (deepest, most specific) element. -/
theorem find_refines_findAll {α : Type} (t : IPTrie α) (a? : Option Bytes) :
    Find t a? =
      (FindAll t a?).bind fun l =>
        match l.getLast? with
        | none => .error .notFound
        | some e => .ok e := by
  cases a? with
  | none => rfl
  | some a =>
    rw [Find_eq_getLast]
    rfl

/-! ### Lemmas about `Delete` -/

theorem regAt?_cons_none {α : Type} {n : Node α} {b : Nat} {rest : List Nat}
    (hc : n.child b = none) : regAt? n (b :: rest) = none := by
  simp only [regAt?]
  rw [hc]

theorem regAt?_cons_some {α : Type} {n c : Node α} {b : Nat} {rest : List Nat}
    (hc : n.child b = some c) : regAt? n (b :: rest) = regAt? c rest := by
  simp only [regAt?]
  rw [hc]

theorem deleteBitsWalk_cons_none {α : Type} {n : Node α} {b : Nat} {rest : List Nat}
    (hc : n.child b = none) : deleteBitsWalk n (b :: rest) = .error .notFound := by
  simp only [deleteBitsWalk]
  rw [hc]

theorem deleteBitsWalk_cons_some {α : Type} {n child : Node α} {b : Nat}
    {rest : List Nat} (hc : n.child b = some child) :
    deleteBitsWalk n (b :: rest) =
      match deleteBitsWalk child rest with
      | .error e => .error e
      | .ok child2 =>
        if child2.childless && !child2.isEnd then .ok (n.delChild b)
        else .ok (n.setChild b child2) := by
  simp only [deleteBitsWalk]
  rw [hc]

theorem deleteBitsWalk_cons_err {α : Type} {n child : Node α} {b : Nat}
    {rest : List Nat} {e : TrieErr} (hc : n.child b = some child)
    (hd : deleteBitsWalk child rest = .error e) :
    deleteBitsWalk n (b :: rest) = .error e := by
  rw [deleteBitsWalk_cons_some hc, hd]

theorem deleteBitsWalk_cons_ok {α : Type} {n child child2 : Node α} {b : Nat}
    {rest : List Nat} (hc : n.child b = some child)
    (hd : deleteBitsWalk child rest = .ok child2) :
    deleteBitsWalk n (b :: rest) =
      if child2.childless && !child2.isEnd then .ok (n.delChild b)
      else .ok (n.setChild b child2) := by
  rw [deleteBitsWalk_cons_some hc, hd]

theorem deleteWalk_succ_none {α : Type} {bs : Bytes} {i fuel : Nat} {n : Node α}
    (hb : bitAt? bs i = none) : deleteWalk n bs i (fuel + 1) = .error .crash := by
  simp only [deleteWalk]
  rw [hb]

theorem deleteWalk_succ_some {α : Type} {bs : Bytes} {i fuel b : Nat} {n : Node α}
    (hb : bitAt? bs i = some b) :
    deleteWalk n bs i (fuel + 1) =
      match n.child b with
      | none => .error .notFound
      | some child =>
        match deleteWalk child bs (i + 1) fuel with
        | .error e => .error e
        | .ok child2 =>
          if child2.childless && !child2.isEnd then .ok (n.delChild b)
          else .ok (n.setChild b child2) := by
  simp only [deleteWalk]
  rw [hb]

theorem deleteWalk_succ_child_none {α : Type} {bs : Bytes} {i fuel b : Nat}
    {n : Node α} (hb : bitAt? bs i = some b) (hc : n.child b = none) :
    deleteWalk n bs i (fuel + 1) = .error .notFound := by
  rw [deleteWalk_succ_some hb, hc]

theorem deleteWalk_succ_child_some {α : Type} {bs : Bytes} {i fuel b : Nat}
    {n child : Node α} (hb : bitAt? bs i = some b) (hc : n.child b = some child) :
    deleteWalk n bs i (fuel + 1) =
      match deleteWalk child bs (i + 1) fuel with
      | .error e => .error e
      | .ok child2 =>
        if child2.childless && !child2.isEnd then .ok (n.delChild b)
        else .ok (n.setChild b child2) := by
  rw [deleteWalk_succ_some hb, hc]

theorem deleteWalk_eq_bits {α : Type} :
    ∀ (fuel i : Nat) (bs : Bytes) (bits : List Nat) (n : Node α),
      bitsFrom bs (List.range' i fuel) = some bits →
      deleteWalk n bs i fuel = deleteBitsWalk n bits := by
  intro fuel
  induction fuel with
  | zero =>
    intro i bs bits n h
    rw [List.range'_zero] at h
    have h2 : (some ([] : List Nat)) = some bits := h
    injection h2 with h3
    subst h3
    rfl
  | succ fuel ih =>
    intro i bs bits n h
    rw [List.range'_succ] at h
    unfold bitsFrom at h
    cases hb : bitAt? bs i with
    | none => rw [hb] at h; cases h
    | some b =>
      rw [hb] at h
      cases hrest : bitsFrom bs (List.range' (i + 1) fuel) with
      | none => rw [hrest] at h; cases h
      | some l =>
        rw [hrest] at h
        have h2 : (some (b :: l)) = some bits := h
        injection h2 with h3
        subst h3
        cases hc : n.child b with
        | none => rw [deleteWalk_succ_child_none hb hc, deleteBitsWalk_cons_none hc]
        | some child =>
          rw [deleteWalk_succ_child_some hb hc, deleteBitsWalk_cons_some hc,
            ih (i + 1) bs l child hrest]

theorem deleteWalk_ok_bits {α : Type} :
    ∀ (fuel i : Nat) (bs : Bytes) (n n2 : Node α),
      deleteWalk n bs i fuel = .ok n2 →
      ∃ bits, bitsFrom bs (List.range' i fuel) = some bits := by
  intro fuel
  induction fuel with
  | zero =>
    intro i bs n n2 _
    exact ⟨[], by rw [List.range'_zero]; rfl⟩
  | succ fuel ih =>
    intro i bs n n2 hok
    cases hb : bitAt? bs i with
    | none =>
      rw [deleteWalk_succ_none hb] at hok
      cases hok
    | some b =>
      cases hc : n.child b with
      | none =>
        rw [deleteWalk_succ_child_none hb hc] at hok
        cases hok
      | some child =>
        rw [deleteWalk_succ_child_some hb hc] at hok
        cases hd : deleteWalk child bs (i + 1) fuel with
        | error e =>
          rw [hd] at hok
          cases hok
        | ok child2 =>
          rcases ih (i + 1) bs child child2 hd with ⟨l, hl⟩
          refine ⟨b :: l, ?_⟩
          rw [List.range'_succ]
          simp [bitsFrom, hb, hl]

theorem deleteBitsWalk_notFound {α : Type} :
    ∀ (bits : List Nat) (n : Node α),
      (∀ e, deleteBitsWalk n bits = .error e → e = .notFound) ∧
      (deleteBitsWalk n bits = .error .notFound ↔ regAt? n bits = none) := by
  intro bits
  induction bits with
  | nil =>
    intro n
    constructor
    · intro e he
      by_cases h : n.isEnd
      · have hL : deleteBitsWalk n [] = .ok (clearReg n) := by
          simp [deleteBitsWalk, h]
        rw [hL] at he
        cases he
      · have hL : deleteBitsWalk n [] = .error .notFound := by
          simp [deleteBitsWalk, h]
        rw [hL] at he
        injection he with h2
        exact h2.symm
    · by_cases h : n.isEnd <;> simp [deleteBitsWalk, regAt?, h]
  | cons b rest ih =>
    intro n
    cases hc : n.child b with
    | none =>
      rw [deleteBitsWalk_cons_none hc, regAt?_cons_none hc]
      constructor
      · intro e he
        injection he with h2
        exact h2.symm
      · simp
    | some child =>
      rcases ih child with ⟨ih1, ih2⟩
      rw [regAt?_cons_some hc]
      cases hd : deleteBitsWalk child rest with
      | error e =>
        have he : e = .notFound := ih1 e hd
        subst he
        rw [deleteBitsWalk_cons_err hc hd]
        constructor
        · intro e2 he2
          injection he2 with h2
          exact h2.symm
        · constructor
          · intro _
            exact ih2.mp hd
          · intro _
            rfl
      | ok child2 =>
        rw [deleteBitsWalk_cons_ok hc hd]
        constructor
        · intro e2 he2
          split at he2 <;> cases he2
        · constructor
          · intro h2
            split at h2 <;> cases h2
          · intro h2
            have hcontra := ih2.mpr h2
            rw [hd] at hcontra
            cases hcontra

theorem deleteBitsWalk_frame {α : Type} :
    ∀ (bits : List Nat) (n n2 : Node α) (q : List Nat),
      (∀ x ∈ bits, x ≤ 1) → (∀ x ∈ q, x ≤ 1) →
      deleteBitsWalk n bits = .ok n2 →
      regAt? n2 q = if q = bits then none else regAt? n q := by
  intro bits
  induction bits with
  | nil =>
    intro n n2 q _ _ hok
    by_cases h : n.isEnd
    · have hL : deleteBitsWalk n [] = .ok (clearReg n) := by
        simp [deleteBitsWalk, h]
      rw [hL] at hok
      have hn2 : n2 = clearReg n := (Except.ok.inj hok).symm
      subst hn2
      cases q with
      | nil => simp [regAt?, Node.isEnd_clearReg]
      | cons b' q' =>
        rw [if_neg (by simp)]
        simp [regAt?, Node.child_clearReg]
    · have hL : deleteBitsWalk n [] = .error .notFound := by
        simp [deleteBitsWalk, h]
      rw [hL] at hok
      cases hok
  | cons b rest ih =>
    intro n n2 q hb hq hok
    have hb1 : b ≤ 1 := hb b (List.mem_cons_self b rest)
    have hbr : ∀ x ∈ rest, x ≤ 1 := fun x hx => hb x (List.mem_cons_of_mem b hx)
    cases hc : n.child b with
    | none =>
      rw [deleteBitsWalk_cons_none hc] at hok
      cases hok
    | some child =>
      cases hd : deleteBitsWalk child rest with
      | error e =>
        rw [deleteBitsWalk_cons_err hc hd] at hok
        cases hok
      | ok child2 =>
        rw [deleteBitsWalk_cons_ok hc hd] at hok
        by_cases hcond : (child2.childless && !child2.isEnd) = true
        · rw [if_pos hcond] at hok
          have hn2 : n2 = n.delChild b := (Except.ok.inj hok).symm
          subst hn2
          have hdead1 : child2.childless = true := (Bool.and_eq_true _ _).mp hcond |>.1
          have hdead2 : child2.isEnd = false := by
            have h2 := (Bool.and_eq_true _ _).mp hcond |>.2
            simpa using h2
          cases q with
          | nil =>
            rw [if_neg (by simp)]
            simp [regAt?, Node.isEnd_delChild, Node.cidr_delChild, Node.metadata_delChild]
          | cons b' q' =>
            have hq1 : b' ≤ 1 := hq b' (List.mem_cons_self b' q')
            have hqr : ∀ x ∈ q', x ≤ 1 := fun x hx => hq x (List.mem_cons_of_mem b' hx)
            by_cases hbb : b' = b
            · subst hbb
              have hcd := Node.child_delChild_self n b'
              have lhs0 : regAt? (n.delChild b') (b' :: q') = none := by
                simp [regAt?, hcd]
              rw [lhs0]
              by_cases hqq : q' = rest
              · rw [if_pos (by rw [hqq])]
              · rw [if_neg (fun hcon : b' :: q' = b' :: rest => by
                  injection hcon with h1 h2
                  exact hqq h2)]
                have hih := ih child child2 q' hbr hqr hd
                rw [if_neg hqq] at hih
                have hcq : regAt? child q' = none := by
                  rw [← hih]
                  exact regAt?_dead hdead1 hdead2 q'
                have hr2 : regAt? n (b' :: q') = regAt? child q' := by
                  simp [regAt?, hc]
                rw [hr2, hcq]
            · have hcd := Node.child_delChild_ne n hb1 hq1 (fun h => hbb h.symm)
              have lhs0 : regAt? (n.delChild b) (b' :: q') = regAt? n (b' :: q') := by
                simp [regAt?, hcd]
              rw [lhs0, if_neg (fun hcon : b' :: q' = b :: rest => by
                injection hcon with h1 h2
                exact hbb h1)]
        · rw [if_neg hcond] at hok
          have hn2 : n2 = n.setChild b child2 := (Except.ok.inj hok).symm
          subst hn2
          cases q with
          | nil =>
            rw [if_neg (by simp)]
            simp [regAt?, Node.isEnd_setChild, Node.cidr_setChild, Node.metadata_setChild]
          | cons b' q' =>
            have hq1 : b' ≤ 1 := hq b' (List.mem_cons_self b' q')
            have hqr : ∀ x ∈ q', x ≤ 1 := fun x hx => hq x (List.mem_cons_of_mem b' hx)
            by_cases hbb : b' = b
            · subst hbb
              have hcs := Node.child_setChild_self n b' child2
              have lhs0 : regAt? (n.setChild b' child2) (b' :: q') = regAt? child2 q' := by
                simp [regAt?, hcs]
              rw [lhs0, ih child child2 q' hbr hqr hd]
              by_cases hqq : q' = rest
              · rw [if_pos hqq, if_pos (by rw [hqq])]
              · rw [if_neg hqq, if_neg (fun hcon : b' :: q' = b' :: rest => by
                  injection hcon with h1 h2
                  exact hqq h2)]
                have hr2 : regAt? n (b' :: q') = regAt? child q' := by
                  simp [regAt?, hc]
                rw [hr2]
            · have hcs := Node.child_setChild_ne n child2 hb1 hq1 (fun h => hbb h.symm)
              have lhs0 : regAt? (n.setChild b child2) (b' :: q') = regAt? n (b' :: q') := by
                simp [regAt?, hcs]
              rw [lhs0, if_neg (fun hcon : b' :: q' = b :: rest => by
                injection hcon with h1 h2
                exact hbb h1)]

theorem Delete_eq_bits {α : Type} (t : IPTrie α) (c : CIDR) {pb : List Nat}
    (hp : deletePathBits c = some pb) :
    Delete t (some c) =
      match deleteBitsWalk t.root pb with
      | .error e => .error e
      | .ok r => .ok ⟨r⟩ := by
  have hp2 : bitsFrom (ipToBytes c.ip) (List.range (deleteStop c)) = some pb := hp
  rw [List.range_eq_range'] at hp2
  have hw : deleteWalk t.root (ipToBytes c.ip) 0 (deleteStop c) =
      deleteBitsWalk t.root pb :=
    deleteWalk_eq_bits (deleteStop c) 0 (ipToBytes c.ip) pb t.root hp2
  show (match deleteWalk t.root (ipToBytes c.ip) 0 (deleteStop c) with
    | .error e => (.error e : Except TrieErr (IPTrie α))
    | .ok r => .ok ⟨r⟩) = _
  rw [hw]

/-! ### Claims about `Delete` -/

/-- Claim C6 (counterexample):  The claim quantifies over every well-formed
CIDR, asserting Delete either succeeds on an exact registration or
fails with not-found.  For the well-formed CIDR `::ffff:1.2.3.4/104`
(16-byte address, `ones = 104 ≤ total = 128`), on a trie that holds
`1.0.0.0/32` the delete walk runs 104 iterations over the 4 bytes that
`ipToBytes` left of the IPv4-mapped masked address, and the Go code
panics with an index out of range at bit 32 instead of returning the
not-found error (no 104-bit registration exists). -/
theorem delete_mapped_crash_cex :
    (v4mapped104.ip.length = 16 ∧ v4mapped104.total = 8 * v4mapped104.ip.length ∧
      v4mapped104.ones ≤ v4mapped104.total) ∧
      Delete trieHost (some v4mapped104) = .error .crash :=
  ⟨⟨rfl, rfl, by decide⟩, rfl⟩

/-- Claim C6 (amended):  For every well-formed CIDR whose delete bit walk
stays inside `ipToBytes` of its masked address (`deletePathBits`
defined): Delete fails, always with the not-found error, exactly when
no registration sits at that exact bit path (a longer or shorter
registered prefix along the path does not count); when the exact
registration exists Delete succeeds and clears it, so the same path
holds no registration afterwards, a second Delete of the same CIDR
fails with not-found, and `Find` fails with not-found on every address
all of whose matching registrations were the deleted one. -/
theorem delete_exact_spec {α : Type} (t : IPTrie α) (c : CIDR) (pb : List Nat)
    (hp : deletePathBits c = some pb) :
    (∀ e, Delete t (some c) = .error e → e = .notFound) ∧
      (Delete t (some c) = .error .notFound ↔ regAt? t.root pb = none) ∧
      (∀ t', Delete t (some c) = .ok t' →
        regAt? t'.root pb = none ∧
          Delete t' (some c) = .error .notFound ∧
          (∀ a : Bytes,
            (∀ q ∈ (addrBits a).inits, regAt? t.root q ≠ none → q = pb) →
            Find t' (some a) = .error .notFound)) := by
  have hp2 : bitsFrom (ipToBytes c.ip) (List.range (deleteStop c)) = some pb := hp
  have hpb1 : ∀ x ∈ pb, x ≤ 1 := bitsFrom_le_one hp2
  have hD := Delete_eq_bits t c hp
  rcases deleteBitsWalk_notFound pb t.root with ⟨hE, hIff⟩
  refine ⟨?_, ?_, ?_⟩
  · intro e he
    rw [hD] at he
    cases hw : deleteBitsWalk t.root pb with
    | error e2 =>
      rw [hw] at he
      injection he with h2
      exact h2 ▸ hE e2 hw
    | ok r =>
      rw [hw] at he
      cases he
  · rw [hD]
    cases hw : deleteBitsWalk t.root pb with
    | error e2 =>
      have he2 := hE e2 hw
      subst he2
      constructor
      · intro _
        exact hIff.mp hw
      · intro _
        rfl
    | ok r =>
      constructor
      · intro h
        cases h
      · intro h
        have hcontra := hIff.mpr h
        rw [hw] at hcontra
        cases hcontra
  · intro t' ht'
    rw [hD] at ht'
    cases hw : deleteBitsWalk t.root pb with
    | error e2 =>
      rw [hw] at ht'
      cases ht'
    | ok r =>
      rw [hw] at ht'
      have hr : t' = ⟨r⟩ := (Except.ok.inj ht').symm
      subst hr
      have hframe := deleteBitsWalk_frame pb t.root r pb hpb1 hpb1 hw
      rw [if_pos rfl] at hframe
      refine ⟨hframe, ?_, ?_⟩
      · rw [Delete_eq_bits ⟨r⟩ c hp]
        rcases deleteBitsWalk_notFound pb (⟨r⟩ : IPTrie α).root with ⟨_, hIff2⟩
        rw [hIff2.mpr hframe]
      · intro a honly
        have hnone : ∀ q ∈ (addrBits a).inits, regAt? r q = none := by
          intro q hqmem
          have hq1 := mem_inits_le_one hqmem
          have hfq := deleteBitsWalk_frame pb t.root r q hpb1 hq1 hw
          by_cases hqq : q = pb
          · rw [if_pos hqq] at hfq
            exact hfq
          · rw [if_neg hqq] at hfq
            rw [hfq]
            by_cases hz : regAt? t.root q = none
            · exact hz
            · exact absurd (honly q hqmem hz) hqq
        have hsm : specMatches r (addrBits a) = [] := by
          unfold specMatches
          exact List.filterMap_eq_nil_iff.mpr hnone
        have hroot : (⟨r⟩ : IPTrie α).root = r := rfl
        rw [Find_eq_getLast, hroot, findAllWalk_eq_specMatches, hsm]
        rfl

/-- Claim C6 (witness):  With `10.0.0.0/8` and `10.1.0.0/16` inserted,
deleting `10.1.0.0/16` succeeds and clears exactly that registration,
and a second delete of the same CIDR fails with not-found. -/
theorem delete_exact_spec_witness :
    deletePathBits cidr10_1_16 = some path10_1 ∧
      regAt? trieA2.root path10_1 = none ∧
      Delete trieA2 (some cidr10_1_16) = .error .notFound := by
  have h := (delete_exact_spec trieA cidr10_1_16 path10_1 rfl).2.2 trieA2 rfl
  exact ⟨rfl, h.1, h.2.1⟩

/-- Claim C7:  A successful Delete changes no registration other than the
one at the deleted CIDR's exact bit path, and for every address whose
bit sequence does not extend the deleted path (so it is covered only by
other prefixes), `Find` and `FindAll` return exactly what they returned
before the deletion. -/
theorem delete_frame_other_prefixes {α : Type} (t : IPTrie α) (c : CIDR)
    (pb : List Nat) (t' : IPTrie α) (hp : deletePathBits c = some pb)
    (hd : Delete t (some c) = .ok t') :
    (∀ q : List Nat, (∀ x ∈ q, x ≤ 1) → q ≠ pb →
      regAt? t'.root q = regAt? t.root q) ∧
      (∀ a : Bytes, ¬ ((addrBits a).take pb.length = pb) →
        Find t' (some a) = Find t (some a) ∧
          FindAll t' (some a) = FindAll t (some a)) := by
  have hp2 : bitsFrom (ipToBytes c.ip) (List.range (deleteStop c)) = some pb := hp
  have hpb1 : ∀ x ∈ pb, x ≤ 1 := bitsFrom_le_one hp2
  rw [Delete_eq_bits t c hp] at hd
  cases hw : deleteBitsWalk t.root pb with
  | error e =>
    rw [hw] at hd
    cases hd
  | ok r =>
    rw [hw] at hd
    have hr : t' = ⟨r⟩ := (Except.ok.inj hd).symm
    subst hr
    have hfr : ∀ q : List Nat, (∀ x ∈ q, x ≤ 1) → q ≠ pb →
        regAt? r q = regAt? t.root q := by
      intro q hq hne
      have hfq := deleteBitsWalk_frame pb t.root r q hpb1 hq hw
      rw [if_neg hne] at hfq
      exact hfq
    refine ⟨hfr, ?_⟩
    intro a hna
    have hpbnot : pb ∉ (addrBits a).inits := by
      intro hmem
      rcases (List.mem_inits _ _).mp hmem with ⟨tail, htail⟩
      apply hna
      rw [← htail]
      exact List.take_left pb tail
    have hcong : ∀ q ∈ (addrBits a).inits, regAt? r q = regAt? t.root q := by
      intro q hqmem
      exact hfr q (mem_inits_le_one hqmem) (fun h => hpbnot (h ▸ hqmem))
    have hsm : specMatches r (addrBits a) = specMatches t.root (addrBits a) := by
      unfold specMatches
      exact List.filterMap_congr hcong
    constructor
    · rw [Find_eq_getLast, Find_eq_getLast]
      have hroot : (⟨r⟩ : IPTrie α).root = r := rfl
      rw [hroot, findAllWalk_eq_specMatches, findAllWalk_eq_specMatches, hsm]
    · have h1 : FindAll (⟨r⟩ : IPTrie α) (some a) =
          .ok (findAllWalk r (addrBits a) []) := rfl
      have h2 : FindAll t (some a) =
          .ok (findAllWalk t.root (addrBits a) []) := rfl
      rw [h1, h2, findAllWalk_eq_specMatches, findAllWalk_eq_specMatches, hsm]

/-- Claim C7 (witness):  With `10.0.0.0/8` and `10.1.0.0/16` inserted,
deleting `10.1.0.0/16` leaves both lookups unchanged on `10.2.3.4`,
an address only inside `10.0.0.0/8`. -/
theorem delete_frame_witness :
    Find trieA2 (some [10, 2, 3, 4]) = Find trieA (some [10, 2, 3, 4]) ∧
      FindAll trieA2 (some [10, 2, 3, 4]) = FindAll trieA (some [10, 2, 3, 4]) :=
  (delete_frame_other_prefixes trieA cidr10_1_16 path10_1 trieA2 rfl rfl).2
    [10, 2, 3, 4] (by decide)

/-! ### The pruning invariant -/

theorem Good.children {α : Type} {n : Node α} (h : Good n) :
    ∀ b x, n.child b = some x → Good x := by
  cases h with
  | intro c0 c1 e m s h1 h2 h3 =>
    intro b x hbx
    simp only [Node.child] at hbx
    by_cases hb : b = 0
    · rw [if_pos hb] at hbx
      exact h2 x hbx
    · rw [if_neg hb] at hbx
      exact h3 x hbx

theorem Good_of {α : Type} {n : Node α} (hch : ∀ b x, n.child b = some x → Good x)
    (hbase : n.childless = true → n.isEnd = true) : Good n := by
  cases n with
  | mk c0 c1 e m s =>
    refine Good.intro c0 c1 e m s ?_ ?_ ?_
    · intro h0 h1
      have hcl : Node.childless (Node.mk c0 c1 e m s) = true := by
        simp [Node.childless, h0, h1]
      have hE := hbase hcl
      simpa [Node.isEnd] using hE
    · intro x hx
      exact hch 0 x (by simp [Node.child, hx])
    · intro x hx
      exact hch 1 x (by simp [Node.child, hx])

theorem Good_insertBits {α : Type} (cidr : String) (m : α) :
    ∀ (bits : List Nat) (n : Node α),
      (∀ b x, n.child b = some x → Good x) → Good (insertBits n bits cidr m) := by
  intro bits
  induction bits with
  | nil =>
    intro n hch
    cases n with
    | mk c0 c1 e mm s =>
      refine Good.intro c0 c1 true (some m) cidr ?_ ?_ ?_
      · intro _ _
        rfl
      · intro x hx
        exact hch 0 x (by simp [Node.child, hx])
      · intro x hx
        exact hch 1 x (by simp [Node.child, hx])
  | cons b rest ih =>
    intro n hch
    have hX : insertBits n (b :: rest) cidr m =
        n.setChild b (insertBits ((n.child b).getD Node.empty) rest cidr m) := rfl
    rw [hX]
    have hchch : ∀ b2 x, ((n.child b).getD Node.empty).child b2 = some x → Good x := by
      cases hc : n.child b with
      | none =>
        intro b2 x hx
        simp [Node.empty, Node.child] at hx
      | some ch =>
        intro b2 x hx
        exact (hch b ch hc).children b2 x (by simpa using hx)
    have hGsub : Good (insertBits ((n.child b).getD Node.empty) rest cidr m) :=
      ih _ hchch
    apply Good_of
    · intro b2 x hx
      cases n with
      | mk c0 c1 e mm s =>
        by_cases hb : b = 0 <;> by_cases hb2 : b2 = 0 <;>
          simp [Node.setChild, Node.child, hb, hb2] at hx
        · have hG2 : Good (insertBits (c0.getD Node.empty) rest cidr m) := by
            simpa [Node.child, hb] using hGsub
          exact hx ▸ hG2
        · exact hch 1 x (by simp [Node.child, hx])
        · exact hch 0 x (by simp [Node.child, hx])
        · have hG2 : Good (insertBits (c1.getD Node.empty) rest cidr m) := by
            simpa [Node.child, hb] using hGsub
          exact hx ▸ hG2
    · intro hcl
      rw [Node.childless_setChild] at hcl
      cases hcl

theorem GoodChildren_deleteBitsWalk {α : Type} :
    ∀ (bits : List Nat) (n n2 : Node α),
      (∀ b x, n.child b = some x → Good x) →
      deleteBitsWalk n bits = .ok n2 →
      ∀ b x, n2.child b = some x → Good x := by
  intro bits
  induction bits with
  | nil =>
    intro n n2 hch hok b x hx
    by_cases h : n.isEnd
    · have hL : deleteBitsWalk n [] = .ok (clearReg n) := by
        simp [deleteBitsWalk, h]
      rw [hL] at hok
      have hn2 : n2 = clearReg n := (Except.ok.inj hok).symm
      subst hn2
      rw [Node.child_clearReg] at hx
      exact hch b x hx
    · have hL : deleteBitsWalk n [] = .error .notFound := by
        simp [deleteBitsWalk, h]
      rw [hL] at hok
      cases hok
  | cons b0 rest ih =>
    intro n n2 hch hok b x hx
    cases hc : n.child b0 with
    | none =>
      rw [deleteBitsWalk_cons_none hc] at hok
      cases hok
    | some child =>
      cases hd : deleteBitsWalk child rest with
      | error e =>
        rw [deleteBitsWalk_cons_err hc hd] at hok
        cases hok
      | ok child2 =>
        rw [deleteBitsWalk_cons_ok hc hd] at hok
        have hch2 : ∀ b x, child2.child b = some x → Good x :=
          ih child child2 (hch b0 child hc).children hd
        by_cases hcond : (child2.childless && !child2.isEnd) = true
        · rw [if_pos hcond] at hok
          have hn2 : n2 = n.delChild b0 := (Except.ok.inj hok).symm
          subst hn2
          cases n with
          | mk c0 c1 e mm s =>
            by_cases hb0 : b0 = 0 <;> by_cases hb : b = 0 <;>
              simp [Node.delChild, Node.child, hb0, hb] at hx
            · exact hch 1 x (by simp [Node.child, hx])
            · exact hch 0 x (by simp [Node.child, hx])
        · rw [if_neg hcond] at hok
          have hn2 : n2 = n.setChild b0 child2 := (Except.ok.inj hok).symm
          subst hn2
          have hgood2 : Good child2 := by
            apply Good_of hch2
            intro hcl
            cases hIE : child2.isEnd with
            | true => rfl
            | false =>
              apply absurd _ hcond
              rw [hcl, hIE]
              rfl
          cases n with
          | mk c0 c1 e mm s =>
            by_cases hb0 : b0 = 0 <;> by_cases hb : b = 0 <;>
              simp [Node.setChild, Node.child, hb0, hb] at hx
            · exact hx ▸ hgood2
            · exact hch 1 x (by simp [Node.child, hx])
            · exact hch 0 x (by simp [Node.child, hx])
            · exact hx ▸ hgood2

/-! ### Claims about the pruning invariant -/

/-- Claim C8 (counterexample):  The claim says every reachable trie state has
no childless unregistered node.  But inserting `128.0.0.0/1` into a new
trie and deleting it again — a state reachable by the public
operations — leaves the root with zero children and
`isRegisteredPrefix = false`. -/
theorem pruning_root_cex :
    Reachable trieHalfGone ∧ ¬ DeadFree trieHalfGone := by
  constructor
  · exact @Reachable.del Nat trieHalf trieHalfGone (some cidr128_1)
      (@Reachable.ins Nat NewIPTrie trieHalf (some cidr128_1) 5 Reachable.new rfl)
      rfl
  · intro h
    have h2 : Good (Node.mk (none : Option (Node Nat)) none false none "") := h
    cases h2 with
    | intro c0 c1 e m s h1 h2 h3 => exact Bool.noConfusion (h1 rfl rfl)

/-- Claim C8 (amended):  In every trie state reachable from a new trie by the
public operations, every node other than the root satisfies the pruning
invariant: no non-root node has zero children while being unregistered
(`TrieInv` says every subtree hanging off the root is `Good`).  Only
the root itself — which `Delete` never prunes — can be childless and
unregistered, as in the empty trie. -/
theorem reachable_non_root_pruned {α : Type} :
    ∀ t : IPTrie α, Reachable t → TrieInv t := by
  intro t h
  induction h with
  | new =>
    intro b x hx
    simp [NewIPTrie, Node.empty, Node.child] at hx
  | ins hR hI ih =>
    rename_i t0 t1 c m
    cases c with
    | none =>
      have h2 : (Except.error TrieErr.invalidCIDR : Except TrieErr (IPTrie α)) =
          Except.ok t1 := hI
      cases h2
    | some cc =>
      have hL : Insert t0 (some cc) m =
          match bitsFrom (ipToBytes cc.ip) (insertIdx cc) with
          | none => .error .crash
          | some bits => .ok ⟨insertBits t0.root bits cc.text m⟩ := rfl
      rw [hL] at hI
      cases hbits : bitsFrom (ipToBytes cc.ip) (insertIdx cc) with
      | none =>
        rw [hbits] at hI
        cases hI
      | some bits =>
        rw [hbits] at hI
        have ht1 : t1 = ⟨insertBits t0.root bits cc.text m⟩ := (Except.ok.inj hI).symm
        subst ht1
        intro b x hx
        exact (Good_insertBits cc.text m bits t0.root ih).children b x hx
  | del hR hD ih =>
    rename_i t0 t1 c
    cases c with
    | none =>
      have h2 : (Except.error TrieErr.invalidCIDR : Except TrieErr (IPTrie α)) =
          Except.ok t1 := hD
      cases h2
    | some cc =>
      have hL : Delete t0 (some cc) =
          match deleteWalk t0.root (ipToBytes cc.ip) 0 (deleteStop cc) with
          | .error e => .error e
          | .ok r => .ok ⟨r⟩ := rfl
      rw [hL] at hD
      cases hw : deleteWalk t0.root (ipToBytes cc.ip) 0 (deleteStop cc) with
      | error e =>
        rw [hw] at hD
        cases hD
      | ok r =>
        rw [hw] at hD
        have ht1 : t1 = ⟨r⟩ := (Except.ok.inj hD).symm
        subst ht1
        rcases deleteWalk_ok_bits (deleteStop cc) 0 (ipToBytes cc.ip) t0.root r hw
          with ⟨bits, hbits⟩
        have hw2 : deleteBitsWalk t0.root bits = .ok r := by
          rw [← deleteWalk_eq_bits (deleteStop cc) 0 (ipToBytes cc.ip) bits t0.root hbits]
          exact hw
        exact GoodChildren_deleteBitsWalk bits t0.root r ih hw2

/-- Claim C8 (witness):  The reachable trie holding `10.0.0.0/8` and
`10.1.0.0/16` satisfies the non-root pruning invariant. -/
theorem reachable_non_root_pruned_witness : TrieInv trieA :=
  reachable_non_root_pruned trieA
    (@Reachable.ins Nat trieA0 trieA (some cidr10_1_16) 4
      (@Reachable.ins Nat NewIPTrie trieA0 (some cidr10_8) 3 Reachable.new rfl)
      rfl)

end TrieNet
